import Mathlib

/-!
Verification of the logserver request engine (package engine, engine.go).

The Go code is shallowly embedded: machine integers become Nat/Int, the
parser collaborator is represented by the parsed record attached to each
scanned raw line, the compiled regular expression becomes an opaque
predicate on strings, and the two time-dependent conditions of the reader
(the batch-time flush and context cancellation) become boolean oracles
indexed by the loop iteration.  Stateful code becomes explicit state
passing; the per-connection fan-out is serialized, which is faithful for
the properties below because they are insensitive to the interleaving of
the per-source goroutines.
-/

namespace Logserver

/-- Log mirrors parse.Log: a parsed log line.  Go time.Time values are
embedded as integers (nanoseconds since epoch); t1.After(t2) is t1 > t2
and t1.Before(t2) is t1 < t2. -/
structure Log where
  msg : String
  level : String
  time : Option Int
  fs : String := ""
  fileName : String := ""
  line : Nat := 0
  offset : Nat := 0
  deriving Repr, DecidableEq

/-- Meta mirrors engine.Meta: request/response metadata. -/
structure Meta where
  id : Int
  action : String
  fs : String := ""
  path : List String := []
  deriving Repr, DecidableEq

/-- FileInstance mirrors engine.FileInstance: one source's copy of a file. -/
structure FileInstance where
  size : Int
  fs : String
  deriving Repr, DecidableEq

/-- File mirrors engine.File: a logical file merged over sources. -/
structure File where
  key : String
  path : List String
  isDir : Bool
  instances : List FileInstance := []
  deriving Repr, DecidableEq

/-- Response mirrors engine.Response.  Absent JSON fields are the zero
values, exactly as in Go. -/
structure Response where
  meta : Meta
  lines : List Log := []
  files : List File := []
  error : String := ""
  finished : Bool := false
  deriving Repr, DecidableEq

/-- TimeRange mirrors engine.TimeRange; the Go field End is named stop
here because end is a Lean keyword. -/
structure TimeRange where
  start : Option Int
  stop : Option Int
  deriving Repr, DecidableEq

/-- Request mirrors engine.Request; filterSourceMap is the set view of
filterSource and is represented by list membership. -/
structure Request where
  meta : Meta
  path : List String
  regexp : String
  filterSource : List String
  filterTime : TimeRange
  deriving Repr, DecidableEq

/-- File.filterSources mirrors engine.File.FilterSources: keep only the
instances whose fs is in the set; a file left with no instances is
dropped (nil in Go, none here). -/
def File.filterSources (f : File) (fset : List String) : Option File :=
  if (f.instances.filter fun i => fset.contains i.fs).isEmpty then none
  else some { f with instances := f.instances.filter fun i => fset.contains i.fs }

/-- Response.filterSources mirrors engine.Response.FilterSources: an
empty set means no filtering; otherwise files are filtered and the empty
ones dropped.  The Go receiver is by value, so the original response is
never mutated, which this pure function captures directly. -/
def Response.filterSources (r : Response) (fset : List String) : Response :=
  if fset.isEmpty then r
  else { r with files := r.files.filterMap fun f => f.filterSources fset }

/-- filterOutTime mirrors engine.filterOutTime verbatim, including the
fact that the End bound is only consulted when Start is nil: the Go code
returns from the Start branch without looking at End. -/
def filterOutTime (line : Log) (tr : TimeRange) : Bool :=
  match tr.start with
  | some s =>
    match line.time with
    | none => true
    | some t => decide (t < s)
  | none =>
    match tr.stop with
    | some e =>
      match line.time with
      | none => true
      | some t => decide (e < t)
    | none => false

/-- A raw line as produced by one bufio scanner step: its byte length
(len of scanner.Bytes) together with the result of the parser
collaborator h.parse.Parse on it (with the parser memory threaded
through the scan, so the record may depend on earlier lines). -/
structure RawLine where
  len : Nat
  parsed : Log
  deriving Repr, DecidableEq

/-- Contents of one regular file behind node.FS: whether Open fails,
the successfully scanned lines, and whether the scanner ends in error
(for example a line above the 1 MiB buffer cap). -/
structure FileData where
  openErr : Bool := false
  lines : List RawLine := []
  scanErr : Bool := false
  deriving Repr, DecidableEq

/-- A filesystem tree as exposed by a source backend.  Directories and
files both carry the size reported by Lstat. -/
inductive FSNode where
  | file (name : String) (size : Int) (content : FileData)
  | dir (name : String) (size : Int) (children : List FSNode)

def FSNode.name : FSNode → String
  | .file n _ _ => n
  | .dir n _ _ => n

/-- Source mirrors source.Source: a named filesystem. -/
structure Source where
  name : String
  fs : FSNode

/-- Handler mirrors engine.handler after engine.New has substituted the
defaults; the parse collaborator lives inside RawLine and the cache is
passed explicitly. -/
structure Handler where
  contentBatchSize : Nat
  searchMaxSize : Nat
  excludeDirs : List String
  excludeExtensions : List String
  sources : List Source

/-- filepath.Ext: the suffix of the name from its final dot, empty when
the name holds no dot. -/
def fileExt (name : String) : String :=
  if name.toList.contains '.' then
    String.mk ('.' :: (name.toList.reverse.takeWhile (fun c => c ≠ '.')).reverse)
  else ""

/-- Path segments joined with the separator, as filepath.Join does for
canonical segment lists. -/
def joinPath (segs : List String) : String :=
  String.intercalate "/" segs

/-- strings.Split on the path separator, written over the character list
so that it evaluates inside the kernel; Split of the empty string is the
one-element list holding the empty string, as in Go. -/
def splitSlashAux : List Char → List Char → List String
  | [], acc => [String.mk acc.reverse]
  | c :: cs, acc =>
    if c = '/' then String.mk acc.reverse :: splitSlashAux cs []
    else splitSlashAux cs (c :: acc)

def splitSlash (s : String) : List String :=
  splitSlashAux s.toList []

/-- Inverse view used when a path string is resolved against the
segment-tree filesystem model. -/
def pathSegs (s : String) : List String :=
  if s = "" then [] else splitSlash s

/-- Resolving a path in a source tree; none models an Lstat error (the
path is absent in this source). -/
def findNode : FSNode → List String → Option FSNode
  | n, [] => some n
  | .file _ _ _, _ :: _ => none
  | .dir _ _ children, seg :: rest =>
    match children.find? (fun c => c.name == seg) with
    | some c => findNode c rest
    | none => none

/-- One walk entry as seen by the recurseTree callback: the path of the
visited entry (as segments), its size, and whether it is a directory. -/
structure WalkEntry where
  segs : List String
  size : Int
  isDir : Bool
  deriving Repr, DecidableEq

mutual
/-- handler.recurseTree on one node: a directory whose basename is in
excludeDirs is pruned with SkipDir (neither it nor its children are
visited); a file whose extension is in excludeExtensions is skipped. -/
def walkNode (ed ee : List String) (segs : List String) : FSNode → List WalkEntry
  | .file name size _ =>
    if ee.contains (fileExt name) then []
    else [⟨segs, size, false⟩]
  | .dir name size children =>
    if ed.contains name then []
    else ⟨segs, size, true⟩ :: walkChildren ed ee segs children

def walkChildren (ed ee : List String) (segs : List String) : List FSNode → List WalkEntry
  | [] => []
  | c :: cs => walkNode ed ee (segs ++ [c.name]) c ++ walkChildren ed ee segs cs
end

/-- The walk rooted at a base path inside a source: fs.WalkFS visits the
base itself first; a failing first Lstat makes the walk yield nothing
(the error is logged and skipped). -/
def walkFrom (ed ee : List String) (base : List String) (root : FSNode) : List WalkEntry :=
  match findNode root base with
  | none => []
  | some n => walkNode ed ee base n

/-- handler.srcTree: each walk entry with a nonempty key becomes a
combiner call with a File (no instances yet) and a FileInstance for this
source.  Key and Path mirror strings.Trim plus strings.Split in Go. -/
def srcTreeAdds (h : Handler) (req : Request) (src : Source) : List (File × FileInstance) :=
  (walkFrom h.excludeDirs h.excludeExtensions req.path src.fs).filterMap fun e =>
    if joinPath e.segs = "" then none
    else some ({ key := joinPath e.segs, path := splitSlash (joinPath e.segs),
                 isDir := e.isDir },
               { size := e.size, fs := src.name })

/-- The keys this source contributes to the merged tree: the keys walked
after the exclusion policy. -/
def walkKeys (h : Handler) (req : Request) (src : Source) : List String :=
  (srcTreeAdds h req src).map fun a => a.1.key

/-- combiner.add: on first sight of a key the File is appended (carrying
its so-far-empty instance list); the instance is then always appended to
the file holding that key. -/
def addFile (files : List File) (f : File) (inst : FileInstance) : List File :=
  if files.any (fun g => g.key == f.key) then
    files.map fun g =>
      if g.key == f.key then { g with instances := g.instances ++ [inst] } else g
  else files ++ [{ f with instances := f.instances ++ [inst] }]

/-- The combiner run over a sequence of adds (the per-source walks joined
behind the combiner mutex). -/
def combine (adds : List (File × FileInstance)) : List File :=
  adds.foldl (fun files a => addFile files a.1 a.2) []

/-- The merged unfiltered tree built by serveTree on a cache miss. -/
def buildTreeFiles (h : Handler) (req : Request) : List File :=
  combine (h.sources.flatMap fun src => srcTreeAdds h req src)

/-- serveTree with the tree cache as an explicit association list keyed
by the joined base path.  On a miss the unfiltered response is stored;
the source filter is applied after the lookup, on a value copy, and the
request id is stamped on the outgoing copy only. -/
def serveTree (h : Handler) (req : Request) (cache : List (String × Response)) :
    Response × List (String × Response) :=
  let key := joinPath req.path
  match cache.lookup key with
  | some resp =>
    let r := resp.filterSources req.filterSource
    ({ r with meta := { r.meta with id := req.meta.id } }, cache)
  | none =>
    let resp : Response := { meta := req.meta, files := buildTreeFiles h req }
    let r := resp.filterSources req.filterSource
    ({ r with meta := { r.meta with id := req.meta.id } }, (key, resp) :: cache)

/-- engine.filterSources: an empty filter set keeps every source,
otherwise only the sources whose name is in the set are kept. -/
def filterSourcesList (sources : List Source) (fset : List String) : List Source :=
  if fset.isEmpty then sources
  else sources.filter fun src => fset.contains src.name

/-- Whether a source participates under a filter set: an empty set
filters nothing, otherwise the source name must be in the set. -/
def passFilter (fset : List String) (src : Source) : Bool :=
  fset.isEmpty || fset.contains src.name

/-- The loop state of handler.read: responses emitted so far, the
current batch, the 1-based line number, the cumulative byte offset, and
whether any batch has been flushed. -/
structure ReadState where
  out : List Response
  logLines : List Log
  lineNumber : Nat
  fileOffset : Nat
  sentAny : Bool

def initState : ReadState :=
  { out := [], logLines := [], lineNumber := 1, fileOffset := 0, sentAny := false }

/-- The per-scan environment of handler.read.  re is the compiled regex
as an opaque match predicate; timeFlush i tells whether the wall-clock
batch-time condition holds at iteration i, and cancel i whether ctx.Err
is non-nil at iteration i. -/
structure ReadEnv where
  batchSize : Nat
  maxSize : Nat
  re : Option (String → Bool)
  filterTime : TimeRange
  meta : Meta
  fsName : String
  pathStr : String
  timeFlush : Nat → Bool
  cancel : Nat → Bool

/-- The condition of the continue branch: a regex is present and the
parsed message does not match it. -/
def matchFails (re : Option (String → Bool)) (msg : String) : Bool :=
  match re with
  | some m => !(m msg)
  | none => false

/-- The population of the emitted record: FileName, Offset, FS and Line
are stamped onto the parsed line. -/
def buildLog (fsName pathStr : String) (raw : RawLine) (ln off : Nat) : Log :=
  { raw.parsed with fileName := pathStr, offset := off, fs := fsName, line := ln }

/-- One iteration of the scan loop of handler.read, in source order:
cancellation check, parse, regex test (counters advance on a miss), time
filter (nothing advances on a drop), append, flush by size or time, and
the search-size check against the post-flush batch.  The returned flag
tells whether scanning continues. -/
def readStep (env : ReadEnv) (i : Nat) (raw : RawLine) (s : ReadState) : ReadState × Bool :=
  if env.cancel i then (s, false)
  else
    let line := raw.parsed
    if matchFails env.re line.msg then
      ({ s with lineNumber := s.lineNumber + 1, fileOffset := s.fileOffset + raw.len }, true)
    else
      let log := buildLog env.fsName env.pathStr raw s.lineNumber s.fileOffset
      if filterOutTime log env.filterTime then (s, true)
      else
        let logLines := s.logLines ++ [log]
        let lineNumber := s.lineNumber + 1
        let fileOffset := s.fileOffset + raw.len
        if logLines.length > env.batchSize || env.timeFlush i then
          let s' : ReadState :=
            { out := s.out ++ [{ meta := env.meta, lines := logLines }],
              logLines := [], lineNumber := lineNumber, fileOffset := fileOffset,
              sentAny := true }
          (s', !(env.re.isSome && decide (s'.logLines.length > env.maxSize)))
        else
          let s' : ReadState :=
            { s with logLines := logLines, lineNumber := lineNumber,
                     fileOffset := fileOffset }
          (s', !(env.re.isSome && decide (s'.logLines.length > env.maxSize)))

/-- The scan loop: lines are consumed in order; a step returning false
(cancellation or the search-size check) ends the scan early, which the
boolean in the result records. -/
def readLoop (env : ReadEnv) : List RawLine → Nat → ReadState → ReadState × Bool
  | [], _, s => (s, true)
  | raw :: rest, i, s =>
    match readStep env i raw s with
    | (s', true) => readLoop env rest (i + 1) s'
    | (s', false) => (s', false)

/-- End-of-scan behaviour of handler.read: an early return or a scanner
error emits nothing more; otherwise the residual batch is emitted unless
it is empty while a batch was already flushed or a regex is present. -/
def readFile (env : ReadEnv) (content : FileData) : List Response :=
  match readLoop env content.lines 0 initState with
  | (s, false) => s.out
  | (s, true) =>
    if content.scanErr then s.out
    else if s.logLines.isEmpty && (s.sentAny || env.re.isSome) then s.out
    else s.out ++ [{ meta := env.meta, lines := s.logLines }]

/-- The response metadata of handler.read: the request id and action,
the source name, and the split path with a leading empty segment
removed. -/
def buildMeta (req : Request) (fsName pathStr : String) : Meta :=
  let p := splitSlash pathStr
  { id := req.meta.id, action := req.meta.action, fs := fsName,
    path := if p.head? == some "" then p.tail else p }

/-- The oracles consumed by one file scan. -/
structure ReadOracles where
  timeFlush : Nat → Bool
  cancel : Nat → Bool

def mkReadEnv (h : Handler) (req : Request) (src : Source) (pathStr : String)
    (re : Option (String → Bool)) (ors : ReadOracles) : ReadEnv :=
  { batchSize := h.contentBatchSize, maxSize := h.searchMaxSize, re := re,
    filterTime := req.filterTime, meta := buildMeta req src.name pathStr,
    fsName := src.name, pathStr := pathStr,
    timeFlush := ors.timeFlush, cancel := ors.cancel }

/-- handler.read: a failing Lstat or a directory path produces nothing;
a failing Open produces nothing; otherwise the file is scanned. -/
def read (h : Handler) (req : Request) (src : Source) (pathStr : String)
    (re : Option (String → Bool)) (ors : ReadOracles) : List Response :=
  match findNode src.fs (pathSegs pathStr) with
  | none => []
  | some (.dir _ _ _) => []
  | some (.file _ _ content) =>
    if content.openErr then []
    else readFile (mkReadEnv h req src pathStr re ors) content

/-- handler.serveContent: the reader runs on the joined request path for
every source passing the source filter, with a nil regex.  The fan-out
is serialized in registry order. -/
def serveContent (h : Handler) (req : Request) (ors : String → ReadOracles) :
    List Response :=
  (filterSourcesList h.sources req.filterSource).flatMap fun src =>
    read h req src (joinPath req.path) none (ors src.name)

/-- handler.searchNode: the walk of the base path (with the exclusion
policy) feeds every visited entry to the reader; directories are then
rejected inside the reader itself. -/
def searchNode (h : Handler) (req : Request) (src : Source) (pathStr : String)
    (re : String → Bool) (ors : String → ReadOracles) : List Response :=
  (walkFrom h.excludeDirs h.excludeExtensions (pathSegs pathStr) src.fs).flatMap fun e =>
    read h req src (joinPath e.segs) (some re) (ors (joinPath e.segs))

/-- handler.search: regex compilation (an external collaborator, passed
as a function) either fails, producing the single error response, or
succeeds and the walk-and-read fan-out runs per filtered source. -/
def search (h : Handler) (req : Request)
    (compile : String → Except String (String → Bool))
    (ors : String → String → ReadOracles) : List Response :=
  match compile req.regexp with
  | .error e =>
    [{ meta := req.meta, error := "Bad regexp " ++ req.regexp ++ ": " ++ e }]
  | .ok re =>
    (filterSourcesList h.sources req.filterSource).flatMap fun src =>
      searchNode h req src (joinPath req.path) re (ors src.name)

/-- The collaborators and oracles one dispatch consumes. -/
structure ServeEnv where
  compile : String → Except String (String → Bool)
  contentOrs : String → ReadOracles
  searchOrs : String → String → ReadOracles

/-- The action switch of handler.serve; unknown actions fall through and
produce nothing. -/
def serveBody (h : Handler) (req : Request) (cache : List (String × Response))
    (env : ServeEnv) : List Response × List (String × Response) :=
  if req.meta.action = "get-file-tree" then
    ([(serveTree h req cache).1], (serveTree h req cache).2)
  else if req.meta.action = "get-content" then
    (serveContent h req env.contentOrs, cache)
  else if req.meta.action = "search" then
    (search h req env.compile env.searchOrs, cache)
  else ([], cache)

/-- handler.serve: the action switch, then unconditionally the terminal
finished response carrying only the originating metadata. -/
def serve (h : Handler) (req : Request) (cache : List (String × Response))
    (env : ServeEnv) : List Response × List (String × Response) :=
  ((serveBody h req cache env).1 ++ [{ meta := req.meta, finished := true }],
   (serveBody h req cache env).2)

/-- All lines of a response sequence, in emission order. -/
def allLines (rs : List Response) : List Log :=
  rs.flatMap fun r => r.lines

/-! ## Reader characterization -/

/-- Whether the time filter drops this scanned line; the decision of
filterOutTime reads only the time field, which the stamping of
buildLog leaves untouched. -/
def droppedRaw (tr : TimeRange) (raw : RawLine) : Bool :=
  filterOutTime raw.parsed tr

/-- The lines flushed or pending at a state, in emission order. -/
def emittedLines (s : ReadState) : List Log :=
  allLines s.out ++ s.logLines

/-- The stream of records the reader produces from a run of kept lines:
consecutive line numbers from ln and offsets accumulating the byte
lengths from off. -/
def renumberLogs (fsName pathStr : String) : Nat → Nat → List RawLine → List Log
  | _, _, [] => []
  | ln, off, raw :: rest =>
    buildLog fsName pathStr raw ln off ::
      renumberLogs fsName pathStr (ln + 1) (off + raw.len) rest

/-! ## Concrete fixture

A small registry used to instantiate the theorems on concrete inputs:
two sources, one shared file, one file with timestamps, one empty file.
The batch size 1 and search cap 2 keep kernel evaluation cheap. -/

def exRaw (msg : String) (t : Option Int) : RawLine :=
  { len := msg.length, parsed := { msg := msg, level := "", time := t } }

def exContent : FileData :=
  { lines := [exRaw "alpha" none, exRaw "beta" none, exRaw "gamma" none] }

def exTimed : FileData :=
  { lines := [exRaw "a" (some 1), exRaw "b" none, exRaw "c" (some 5)] }

def exFs : FSNode :=
  .dir "" 0 [.file "f" 3 exContent, .file "t" 3 exTimed, .file "e" 0 {}]

def exSource : Source := { name := "node1", fs := exFs }

def exSource2 : Source :=
  { name := "node2", fs := .dir "" 0 [.file "f" 5 {}, .file "only2" 1 {}] }

def exHandler : Handler :=
  { contentBatchSize := 1, searchMaxSize := 2, excludeDirs := [],
    excludeExtensions := [], sources := [exSource, exSource2] }

def exReq (action : String) : Request :=
  { meta := { id := 7, action := action }, path := [], regexp := "x",
    filterSource := [], filterTime := { start := none, stop := none } }

def exReqTimed : Request :=
  { exReq "get-content" with filterTime := { start := some 2, stop := none } }

def exOrs : ReadOracles := { timeFlush := fun _ => false, cancel := fun _ => false }

def exMatchAll : String → Bool := fun _ => true

def exMatchNone : String → Bool := fun _ => false

def exMatchBeta : String → Bool := fun msg => msg == "beta"

def exServeEnvFail : ServeEnv :=
  { compile := fun _ => .error "syntax", contentOrs := fun _ => exOrs,
    searchOrs := fun _ _ => exOrs }

/-! ## Basic lemmas -/

theorem filterOutTime_buildLog (fsName pathStr : String) (raw : RawLine)
    (ln off : Nat) (tr : TimeRange) :
    filterOutTime (buildLog fsName pathStr raw ln off) tr = droppedRaw tr raw := rfl

theorem emittedLines_initState : emittedLines initState = [] := rfl

theorem allLines_append (rs rs' : List Response) :
    allLines (rs ++ rs') = allLines rs ++ allLines rs' := by
  simp [allLines]

theorem allLines_singleton (r : Response) : allLines [r] = r.lines := by
  simp [allLines]

/-- With no regex and no cancellation, one pass of the scan loop
completes and appends to the emitted stream exactly the renumbering of
the lines the time filter keeps, starting from the state's counters. -/
theorem readLoop_content (env : ReadEnv) (hre : env.re = none)
    (hc : ∀ i, env.cancel i = false) :
    ∀ (lines : List RawLine) (i : Nat) (s : ReadState),
      (readLoop env lines i s).2 = true ∧
      emittedLines (readLoop env lines i s).1 =
        emittedLines s ++
          renumberLogs env.fsName env.pathStr s.lineNumber s.fileOffset
            (lines.filter fun raw => !droppedRaw env.filterTime raw) := by
  intro lines
  induction lines with
  | nil => intro i s; simp [readLoop, renumberLogs]
  | cons raw rest ih =>
    intro i s
    by_cases hd : droppedRaw env.filterTime raw = true
    · have hs : readStep env i raw s = (s, true) := by
        simp [readStep, hc i, hre, matchFails, filterOutTime_buildLog, hd]
      have h1 := ih (i + 1) s
      rw [readLoop, hs]
      refine ⟨h1.1, ?_⟩
      rw [h1.2]
      simp [List.filter_cons, hd]
    · rw [Bool.not_eq_true] at hd
      by_cases hf : (decide ((s.logLines ++
            [buildLog env.fsName env.pathStr raw s.lineNumber s.fileOffset]).length >
              env.batchSize) || env.timeFlush i) = true
      · rw [Bool.or_eq_true, decide_eq_true_eq] at hf
        have hs : readStep env i raw s =
            ({ out := s.out ++ [{ meta := env.meta, lines := s.logLines ++ [buildLog env.fsName env.pathStr raw s.lineNumber s.fileOffset] }], logLines := [], lineNumber := s.lineNumber + 1, fileOffset := s.fileOffset + raw.len, sentAny := true }, true) := by
          rcases hf with h | h
          · simp at h
            simp [readStep, hc i, hre, matchFails, filterOutTime_buildLog, hd, h]
          · simp [readStep, hc i, hre, matchFails, filterOutTime_buildLog, hd, h]
        rw [readLoop, hs]
        have h1 := ih (i + 1)
          { out := s.out ++ [{ meta := env.meta, lines := s.logLines ++ [buildLog env.fsName env.pathStr raw s.lineNumber s.fileOffset] }], logLines := [], lineNumber := s.lineNumber + 1, fileOffset := s.fileOffset + raw.len, sentAny := true }
        refine ⟨h1.1, ?_⟩
        rw [h1.2]
        simp [List.filter_cons, hd, emittedLines, allLines_append, renumberLogs, allLines]
      · rw [Bool.not_eq_true, Bool.or_eq_false_iff] at hf
        obtain ⟨hf1, hf2⟩ := hf
        rw [decide_eq_false_iff_not] at hf1
        simp at hf1
        have hs : readStep env i raw s =
            ({ s with logLines := s.logLines ++ [buildLog env.fsName env.pathStr raw s.lineNumber s.fileOffset], lineNumber := s.lineNumber + 1, fileOffset := s.fileOffset + raw.len }, true) := by
          simp [readStep, hc i, hre, matchFails, filterOutTime_buildLog, hd, hf2]
          omega
        rw [readLoop, hs]
        have h1 := ih (i + 1)
          { s with logLines := s.logLines ++ [buildLog env.fsName env.pathStr raw s.lineNumber s.fileOffset], lineNumber := s.lineNumber + 1, fileOffset := s.fileOffset + raw.len }
        refine ⟨h1.1, ?_⟩
        rw [h1.2]
        simp [List.filter_cons, hd, emittedLines, renumberLogs]

theorem read_eq_readFile (h : Handler) (req : Request) (src : Source)
    (pathStr : String) (re : Option (String → Bool)) (ors : ReadOracles)
    (nm : String) (sz : Int) (content : FileData)
    (hfind : findNode src.fs (pathSegs pathStr) = some (.file nm sz content))
    (hopen : content.openErr = false) :
    read h req src pathStr re ors = readFile (mkReadEnv h req src pathStr re ors) content := by
  simp [read, hfind, hopen]

theorem readFile_allLines (env : ReadEnv) (content : FileData)
    (h2 : (readLoop env content.lines 0 initState).2 = true)
    (hscan : content.scanErr = false) :
    allLines (readFile env content) =
      emittedLines (readLoop env content.lines 0 initState).1 := by
  rcases hl : readLoop env content.lines 0 initState with ⟨st, b⟩
  rw [hl] at h2
  simp only at h2
  subst h2
  simp only [readFile, hl, hscan, Bool.false_eq_true, if_false]
  by_cases he : (st.logLines.isEmpty && (st.sentAny || env.re.isSome)) = true
  · have hnil : st.logLines = [] := by
      have := (Bool.and_eq_true _ _).mp he
      exact List.isEmpty_iff.mp this.1
    have hor := ((Bool.and_eq_true _ _).mp he).2
    rw [Bool.or_eq_true] at hor
    simp [emittedLines, hnil, hor]
  · rw [Bool.not_eq_true] at he
    simp [he, emittedLines, allLines_append, allLines]

theorem renumberLogs_length (f p : String) :
    ∀ (lines : List RawLine) (ln off : Nat),
      (renumberLogs f p ln off lines).length = lines.length
  | [], _, _ => rfl
  | raw :: rest, ln, off => by
    simp [renumberLogs, renumberLogs_length f p rest]

theorem renumberLogs_line (f p : String) :
    ∀ (lines : List RawLine) (ln off j : Nat)
      (hj : j < (renumberLogs f p ln off lines).length),
      ((renumberLogs f p ln off lines).get ⟨j, hj⟩).line = ln + j
  | [], _, _, j, hj => absurd hj (by simp [renumberLogs])
  | raw :: rest, ln, off, 0, hj => by simp [renumberLogs, buildLog]
  | raw :: rest, ln, off, j + 1, hj => by
    have := renumberLogs_line f p rest (ln + 1) (off + raw.len) j
      (by simpa [renumberLogs] using hj)
    simp only [renumberLogs, List.get_cons_succ] at this ⊢
    omega

theorem renumberLogs_offset (f p : String) :
    ∀ (lines : List RawLine) (ln off j : Nat)
      (hj : j < (renumberLogs f p ln off lines).length),
      ((renumberLogs f p ln off lines).get ⟨j, hj⟩).offset =
        off + ((lines.take j).map RawLine.len).sum
  | [], _, _, j, hj => absurd hj (by simp [renumberLogs])
  | raw :: rest, ln, off, 0, hj => by simp [renumberLogs, buildLog]
  | raw :: rest, ln, off, j + 1, hj => by
    have := renumberLogs_offset f p rest (ln + 1) (off + raw.len) j
      (by simpa [renumberLogs] using hj)
    simp only [renumberLogs, List.get_cons_succ, List.take_succ_cons, List.map_cons,
      List.sum_cons] at this ⊢
    omega

theorem sum_take_mono (l : List Nat) :
    ∀ (i j : Nat), i ≤ j → (l.take i).sum ≤ (l.take j).sum := by
  induction l with
  | nil => intro i j _; simp
  | cons a t ih =>
    intro i j hij
    match i, j with
    | 0, _ => simp
    | i + 1, j + 1 =>
      simp only [List.take_succ_cons, List.sum_cons]
      exact Nat.add_le_add_left (ih i j (by omega)) a

/-- The whole-scan characterization of a content read (nil regex, no
cancellation): the concatenation of all emitted lines is the
renumbering, from line 1 and offset 0, of the scanned lines the time
filter keeps. -/
theorem read_content_lines (h : Handler) (req : Request) (src : Source)
    (pathStr : String) (ors : ReadOracles)
    (nm : String) (sz : Int) (content : FileData)
    (hfind : findNode src.fs (pathSegs pathStr) = some (.file nm sz content))
    (hopen : content.openErr = false) (hscan : content.scanErr = false)
    (hc : ∀ i, ors.cancel i = false) :
    allLines (read h req src pathStr none ors) =
      renumberLogs src.name pathStr 1 0
        (content.lines.filter fun raw => !droppedRaw req.filterTime raw) := by
  rw [read_eq_readFile h req src pathStr none ors nm sz content hfind hopen]
  have hmaster := readLoop_content (mkReadEnv h req src pathStr none ors) rfl hc
    content.lines 0 initState
  rw [readFile_allLines _ _ hmaster.1 hscan, hmaster.2]
  simp [emittedLines, initState, allLines, mkReadEnv]

/-- C5: for a get-content read (nil regex) of a non-directory file that
opens and scans successfully, when the time filter drops no line the
concatenated emitted lines have strictly increasing line numbers
starting at 1, monotonically non-decreasing offsets, and their count
equals the number of lines scanned from the file. -/
theorem claim5_content_stream (h : Handler) (req : Request) (src : Source)
    (pathStr : String) (ors : ReadOracles)
    (nm : String) (sz : Int) (content : FileData)
    (hfind : findNode src.fs (pathSegs pathStr) = some (.file nm sz content))
    (hopen : content.openErr = false) (hscan : content.scanErr = false)
    (hc : ∀ i, ors.cancel i = false)
    (hkeep : ∀ raw ∈ content.lines, droppedRaw req.filterTime raw = false) :
    (allLines (read h req src pathStr none ors)).length = content.lines.length ∧
    (∀ j (hj : j < (allLines (read h req src pathStr none ors)).length),
      ((allLines (read h req src pathStr none ors)).get ⟨j, hj⟩).line = j + 1) ∧
    (∀ i j (hi : i < (allLines (read h req src pathStr none ors)).length)
      (hj : j < (allLines (read h req src pathStr none ors)).length), i ≤ j →
      ((allLines (read h req src pathStr none ors)).get ⟨i, hi⟩).offset ≤
        ((allLines (read h req src pathStr none ors)).get ⟨j, hj⟩).offset) := by
  have hflt : content.lines.filter (fun raw => !droppedRaw req.filterTime raw) =
      content.lines := by
    rw [List.filter_eq_self]
    intro raw hraw
    simp [hkeep raw hraw]
  have hEq : allLines (read h req src pathStr none ors) =
      renumberLogs src.name pathStr 1 0 content.lines := by
    rw [read_content_lines h req src pathStr ors nm sz content hfind hopen hscan hc, hflt]
  refine ⟨?_, ?_, ?_⟩
  · rw [hEq, renumberLogs_length]
  · rw [hEq]
    intro j hj
    rw [renumberLogs_line]
    omega
  · rw [hEq]
    intro i j hi hj hij
    rw [renumberLogs_offset, renumberLogs_offset]
    have := sum_take_mono (content.lines.map RawLine.len) i j hij
    simpa [List.map_take] using this

theorem claim5_witness :
    (∀ raw ∈ exContent.lines,
      droppedRaw (exReq "get-content").filterTime raw = false) ∧
    ((allLines (read exHandler (exReq "get-content") exSource "f" none exOrs)).length =
        exContent.lines.length ∧
    (∀ j (hj : j <
        (allLines (read exHandler (exReq "get-content") exSource "f" none exOrs)).length),
      ((allLines (read exHandler (exReq "get-content") exSource "f" none exOrs)).get
        ⟨j, hj⟩).line = j + 1) ∧
    (∀ i j (hi : i <
        (allLines (read exHandler (exReq "get-content") exSource "f" none exOrs)).length)
      (hj : j <
        (allLines (read exHandler (exReq "get-content") exSource "f" none exOrs)).length),
      i ≤ j →
      ((allLines (read exHandler (exReq "get-content") exSource "f" none exOrs)).get
        ⟨i, hi⟩).offset ≤
        ((allLines (read exHandler (exReq "get-content") exSource "f" none exOrs)).get
          ⟨j, hj⟩).offset)) :=
  ⟨by decide,
   claim5_content_stream exHandler (exReq "get-content") exSource "f" exOrs
     "f" 3 exContent rfl rfl rfl (fun _ => rfl) (by decide)⟩

/-- C10: with a nil regex, the reader neither advances the line number
nor the offset on a line the time filter drops: the emitted stream is
exactly the renumbering of the kept lines, so emitted line numbers stay
consecutive from 1 and offsets accumulate only the kept lines' bytes. -/
theorem claim10_filter_renumbering (h : Handler) (req : Request) (src : Source)
    (pathStr : String) (ors : ReadOracles)
    (nm : String) (sz : Int) (content : FileData)
    (hfind : findNode src.fs (pathSegs pathStr) = some (.file nm sz content))
    (hopen : content.openErr = false) (hscan : content.scanErr = false)
    (hc : ∀ i, ors.cancel i = false) :
    allLines (read h req src pathStr none ors) =
      renumberLogs src.name pathStr 1 0
        (content.lines.filter fun raw => !droppedRaw req.filterTime raw) ∧
    (∀ j (hj : j < (allLines (read h req src pathStr none ors)).length),
      ((allLines (read h req src pathStr none ors)).get ⟨j, hj⟩).line = j + 1) ∧
    (∀ j (hj : j < (allLines (read h req src pathStr none ors)).length),
      ((allLines (read h req src pathStr none ors)).get ⟨j, hj⟩).offset =
        (((content.lines.filter fun raw => !droppedRaw req.filterTime raw).take j).map
          RawLine.len).sum) := by
  have hEq := read_content_lines h req src pathStr ors nm sz content hfind hopen hscan hc
  refine ⟨hEq, ?_, ?_⟩
  · rw [hEq]
    intro j hj
    rw [renumberLogs_line]
    omega
  · rw [hEq]
    intro j hj
    rw [renumberLogs_offset]
    omega

theorem claim10_witness :
    droppedRaw exReqTimed.filterTime (exRaw "a" (some 1)) = true ∧
    (allLines (read exHandler exReqTimed exSource "t" none exOrs) =
      renumberLogs exSource.name "t" 1 0
        (exTimed.lines.filter fun raw => !droppedRaw exReqTimed.filterTime raw) ∧
    (∀ j (hj : j < (allLines (read exHandler exReqTimed exSource "t" none exOrs)).length),
      ((allLines (read exHandler exReqTimed exSource "t" none exOrs)).get
        ⟨j, hj⟩).line = j + 1) ∧
    (∀ j (hj : j < (allLines (read exHandler exReqTimed exSource "t" none exOrs)).length),
      ((allLines (read exHandler exReqTimed exSource "t" none exOrs)).get
        ⟨j, hj⟩).offset =
        (((exTimed.lines.filter fun raw => !droppedRaw exReqTimed.filterTime raw).take
          j).map RawLine.len).sum)) :=
  ⟨by decide,
   claim10_filter_renumbering exHandler exReqTimed exSource "t" exOrs
     "t" 3 exTimed rfl rfl rfl (fun _ => rfl)⟩

theorem readStep_matches (env : ReadEnv) (m : String → Bool) (hre : env.re = some m)
    (i : Nat) (raw : RawLine) (s : ReadState)
    (hinv : ∀ l ∈ emittedLines s, m l.msg = true) :
    ∀ l ∈ emittedLines (readStep env i raw s).1, m l.msg = true := by
  by_cases hcan : env.cancel i = true
  · simpa [readStep, hcan] using hinv
  · rw [Bool.not_eq_true] at hcan
    by_cases hm : matchFails env.re raw.parsed.msg = true
    · simpa [readStep, hcan, hm, emittedLines] using hinv
    · rw [Bool.not_eq_true] at hm
      have hmm : m raw.parsed.msg = true := by
        simpa [matchFails, hre] using hm
      by_cases hd : filterOutTime (buildLog env.fsName env.pathStr raw s.lineNumber
          s.fileOffset) env.filterTime = true
      · simpa [readStep, hcan, hm, hd] using hinv
      · rw [Bool.not_eq_true] at hd
        intro l hl
        by_cases hf : (decide ((s.logLines ++
            [buildLog env.fsName env.pathStr raw s.lineNumber s.fileOffset]).length >
              env.batchSize) || env.timeFlush i) = true
        · simp only [readStep, hcan, hm, hd, hf, Bool.false_eq_true, if_false,
            if_true, ite_true, ite_false] at hl
          simp [emittedLines, allLines_append, allLines_singleton,
            List.mem_append] at hl
          rcases hl with hl | hl | hl
          · exact hinv l (List.mem_append.mpr (Or.inl hl))
          · exact hinv l (List.mem_append.mpr (Or.inr hl))
          · subst hl
            exact hmm
        · rw [Bool.not_eq_true] at hf
          simp only [readStep, hcan, hm, hd, hf, Bool.false_eq_true, if_false,
            if_true, ite_true, ite_false] at hl
          simp [emittedLines, List.mem_append] at hl
          rcases hl with hl | hl | hl
          · exact hinv l (List.mem_append.mpr (Or.inl hl))
          · exact hinv l (List.mem_append.mpr (Or.inr hl))
          · subst hl
            exact hmm

theorem readLoop_matches (env : ReadEnv) (m : String → Bool) (hre : env.re = some m) :
    ∀ (lines : List RawLine) (i : Nat) (s : ReadState),
      (∀ l ∈ emittedLines s, m l.msg = true) →
      ∀ l ∈ emittedLines (readLoop env lines i s).1, m l.msg = true := by
  intro lines
  induction lines with
  | nil => intro i s hinv; simpa [readLoop] using hinv
  | cons raw rest ih =>
    intro i s hinv
    have hstep := readStep_matches env m hre i raw s hinv
    rcases hs : readStep env i raw s with ⟨s', b⟩
    rw [hs] at hstep
    rw [readLoop, hs]
    cases b
    · simpa using hstep
    · exact ih (i + 1) s' hstep

theorem read_matches (h : Handler) (req : Request) (src : Source)
    (pathStr : String) (m : String → Bool) (ors : ReadOracles) :
    ∀ l ∈ allLines (read h req src pathStr (some m) ors), m l.msg = true := by
  rcases hfd : findNode src.fs (pathSegs pathStr) with _ | node
  · simp [read, hfd, allLines]
  · cases node with
    | dir nm sz children => simp [read, hfd, allLines]
    | file nm sz content =>
      by_cases hop : content.openErr = true
      · simp [read, hfd, hop, allLines]
      · rw [Bool.not_eq_true] at hop
        have hloop := readLoop_matches (mkReadEnv h req src pathStr (some m) ors) m rfl
          content.lines 0 initState (by simp [emittedLines_initState])
        intro l hl
        rw [read] at hl
        simp only [hfd, hop, Bool.false_eq_true, if_false] at hl
        rcases hlp : readLoop (mkReadEnv h req src pathStr (some m) ors)
            content.lines 0 initState with ⟨st, b⟩
        rw [hlp] at hloop
        apply hloop
        rw [readFile, hlp] at hl
        cases b
        · simp only at hl
          exact List.mem_append.mpr (Or.inl hl)
        · simp only at hl
          by_cases hse : content.scanErr = true
          · rw [if_pos hse] at hl
            exact List.mem_append.mpr (Or.inl hl)
          · rw [Bool.not_eq_true] at hse
            rw [if_neg (by simp [hse])] at hl
            by_cases he : (st.logLines.isEmpty && (st.sentAny ||
                (mkReadEnv h req src pathStr (some m) ors).re.isSome)) = true
            · rw [if_pos he] at hl
              exact List.mem_append.mpr (Or.inl hl)
            · rw [Bool.not_eq_true] at he
              rw [if_neg (by simp [he])] at hl
              simp only [allLines_append, allLines_singleton, List.mem_append] at hl
              simp only [emittedLines, List.mem_append]
              exact hl

/-- C8: every log a search read emits has a message the compiled regex
accepts (the match is tested on the parsed message, which is the only
input to the predicate); a non-matching line advances the line number
and byte offset and changes nothing else. -/
theorem claim8_search_matches (h : Handler) (req : Request) (src : Source)
    (pathStr : String) (m : String → Bool) (ors : ReadOracles) :
    (∀ l ∈ allLines (read h req src pathStr (some m) ors), m l.msg = true) ∧
    (∀ (env : ReadEnv) (i : Nat) (raw : RawLine) (s : ReadState),
      env.re = some m → env.cancel i = false → m raw.parsed.msg = false →
      readStep env i raw s =
        ({ s with lineNumber := s.lineNumber + 1,
                  fileOffset := s.fileOffset + raw.len }, true)) := by
  refine ⟨read_matches h req src pathStr m ors, ?_⟩
  intro env i raw s hre hcan hm
  simp [readStep, hcan, matchFails, hre, hm]

theorem claim8_witness :
    (∀ l ∈ allLines (read exHandler (exReq "search") exSource "f"
        (some exMatchBeta) exOrs), exMatchBeta l.msg = true) ∧
    (∀ (env : ReadEnv) (i : Nat) (raw : RawLine) (s : ReadState),
      env.re = some exMatchBeta → env.cancel i = false →
      exMatchBeta raw.parsed.msg = false →
      readStep env i raw s =
        ({ s with lineNumber := s.lineNumber + 1,
                  fileOffset := s.fileOffset + raw.len }, true)) :=
  claim8_search_matches exHandler (exReq "search") exSource "f" exMatchBeta exOrs

theorem readLoop_no_match (env : ReadEnv) (m : String → Bool) (hre : env.re = some m)
    (hc : ∀ i, env.cancel i = false) :
    ∀ (lines : List RawLine) (i : Nat) (s : ReadState),
      (∀ raw ∈ lines, m raw.parsed.msg = false) →
      (readLoop env lines i s).1.out = s.out ∧
      (readLoop env lines i s).1.logLines = s.logLines ∧
      (readLoop env lines i s).1.sentAny = s.sentAny ∧
      (readLoop env lines i s).2 = true := by
  intro lines
  induction lines with
  | nil => intro i s _; simp [readLoop]
  | cons raw rest ih =>
    intro i s hno
    have hs : readStep env i raw s =
        ({ s with lineNumber := s.lineNumber + 1,
                  fileOffset := s.fileOffset + raw.len }, true) := by
      simp [readStep, hc i, matchFails, hre, hno raw (List.mem_cons_self raw rest)]
    rw [readLoop, hs]
    exact ih (i + 1) _ (fun r hr => hno r (List.mem_cons_of_mem raw hr))

theorem readLoop_all_dropped (env : ReadEnv) (hre : env.re = none)
    (hc : ∀ i, env.cancel i = false) :
    ∀ (lines : List RawLine) (i : Nat) (s : ReadState),
      (∀ raw ∈ lines, droppedRaw env.filterTime raw = true) →
      readLoop env lines i s = (s, true) := by
  intro lines
  induction lines with
  | nil => intro i s _; simp [readLoop]
  | cons raw rest ih =>
    intro i s hdrop
    have hs : readStep env i raw s = (s, true) := by
      simp [readStep, hc i, matchFails, hre, filterOutTime_buildLog,
        hdrop raw (List.mem_cons_self raw rest)]
    rw [readLoop, hs]
    exact ih (i + 1) s (fun r hr => hdrop r (List.mem_cons_of_mem raw hr))

/-- C6: at end of file the reader emits one response carrying the
residual batch exactly when the batch is non-empty or nothing was
flushed and no regex is in effect; hence a get-content of an empty or
fully time-filtered file yields exactly one response with an empty line
list, while a search over a file with zero matches yields none. -/
theorem claim6_residual_emission (h : Handler) (req : Request) (src : Source)
    (pathStr : String) (ors : ReadOracles)
    (nm : String) (sz : Int) (content : FileData)
    (hfind : findNode src.fs (pathSegs pathStr) = some (.file nm sz content))
    (hopen : content.openErr = false) (hscan : content.scanErr = false)
    (hc : ∀ i, ors.cancel i = false) :
    (∀ re : Option (String → Bool),
      (readLoop (mkReadEnv h req src pathStr re ors) content.lines 0 initState).2 = true →
      (read h req src pathStr re ors).length =
        (readLoop (mkReadEnv h req src pathStr re ors) content.lines 0
          initState).1.out.length +
        (if (readLoop (mkReadEnv h req src pathStr re ors) content.lines 0
              initState).1.logLines.isEmpty &&
            ((readLoop (mkReadEnv h req src pathStr re ors) content.lines 0
              initState).1.sentAny || re.isSome)
          then 0 else 1)) ∧
    ((∀ raw ∈ content.lines, droppedRaw req.filterTime raw = true) →
      read h req src pathStr none ors =
        [{ meta := buildMeta req src.name pathStr, lines := [] }]) ∧
    (∀ m : String → Bool, (∀ raw ∈ content.lines, m raw.parsed.msg = false) →
      read h req src pathStr (some m) ors = []) := by
  refine ⟨?_, ?_, ?_⟩
  · intro re h2
    rw [read_eq_readFile h req src pathStr re ors nm sz content hfind hopen]
    rcases hl : readLoop (mkReadEnv h req src pathStr re ors) content.lines 0 initState
      with ⟨st, b⟩
    rw [hl] at h2
    simp only at h2
    subst h2
    rw [readFile, hl]
    simp only [hscan, Bool.false_eq_true, if_false, hl]
    by_cases he : (st.logLines.isEmpty &&
        (st.sentAny || (mkReadEnv h req src pathStr re ors).re.isSome)) = true
    · have he' : (st.logLines.isEmpty && (st.sentAny || re.isSome)) = true := he
      rw [if_pos he, if_pos he']
      simp
    · rw [Bool.not_eq_true] at he
      have he' : (st.logLines.isEmpty && (st.sentAny || re.isSome)) = false := he
      rw [if_neg (by simp [he]), if_neg (by simp [he'])]
      simp
  · intro hdrop
    rw [read_eq_readFile h req src pathStr none ors nm sz content hfind hopen]
    have hl := readLoop_all_dropped (mkReadEnv h req src pathStr none ors) rfl hc
      content.lines 0 initState hdrop
    rw [readFile, hl]
    simp [hscan, initState, mkReadEnv]
  · intro m hno
    rw [read_eq_readFile h req src pathStr (some m) ors nm sz content hfind hopen]
    have hl := readLoop_no_match (mkReadEnv h req src pathStr (some m) ors) m rfl hc
      content.lines 0 initState hno
    rcases hlp : readLoop (mkReadEnv h req src pathStr (some m) ors) content.lines 0
      initState with ⟨st, b⟩
    rw [hlp] at hl
    simp only [initState] at hl
    obtain ⟨hout, hlog, _, hb⟩ := hl
    subst hb
    rw [readFile, hlp]
    simp [hscan, hout, hlog, mkReadEnv]

theorem claim6_witness :
    (read exHandler (exReq "get-content") exSource "e" none exOrs =
      [{ meta := buildMeta (exReq "get-content") "node1" "e", lines := [] }]) ∧
    (read exHandler (exReq "search") exSource "f" (some exMatchNone) exOrs = []) :=
  ⟨(claim6_residual_emission exHandler (exReq "get-content") exSource "e" exOrs
      "e" 0 {} rfl rfl rfl (fun _ => rfl)).2.1 (by decide),
   (claim6_residual_emission exHandler (exReq "search") exSource "f" exOrs
      "f" 3 exContent rfl rfl rfl (fun _ => rfl)).2.2 exMatchNone (by decide)⟩

theorem filterSources_finished (r : Response) (fset : List String) :
    (r.filterSources fset).finished = r.finished := by
  rw [Response.filterSources]
  split <;> rfl

theorem filterSources_lines (r : Response) (fset : List String) :
    (r.filterSources fset).lines = r.lines := by
  rw [Response.filterSources]
  split <;> rfl

theorem filterSources_error (r : Response) (fset : List String) :
    (r.filterSources fset).error = r.error := by
  rw [Response.filterSources]
  split <;> rfl

theorem lookup_mem {α β : Type} [BEq α] [LawfulBEq α] :
    ∀ (l : List (α × β)) (k : α) (v : β), l.lookup k = some v → (k, v) ∈ l
  | [], _, _, hl => by simp [List.lookup] at hl
  | (a, b) :: t, k, v, hl => by
    rw [List.lookup] at hl
    cases hka : k == a with
    | true =>
      simp only [hka] at hl
      have hbv : b = v := by simpa using hl
      have hk : k = a := eq_of_beq hka
      subst hk
      subst hbv
      exact List.mem_cons_self _ _
    | false =>
      simp only [hka] at hl
      exact List.mem_cons_of_mem _ (lookup_mem t k v hl)

theorem readStep_finished (env : ReadEnv) (i : Nat) (raw : RawLine) (s : ReadState)
    (hinv : ∀ r ∈ s.out, r.finished = false) :
    ∀ r ∈ (readStep env i raw s).1.out, r.finished = false := by
  by_cases hcan : env.cancel i = true
  · simpa [readStep, hcan] using hinv
  · rw [Bool.not_eq_true] at hcan
    by_cases hm : matchFails env.re raw.parsed.msg = true
    · simpa [readStep, hcan, hm] using hinv
    · rw [Bool.not_eq_true] at hm
      by_cases hd : filterOutTime (buildLog env.fsName env.pathStr raw s.lineNumber
          s.fileOffset) env.filterTime = true
      · simpa [readStep, hcan, hm, hd] using hinv
      · rw [Bool.not_eq_true] at hd
        intro r hr
        by_cases hf : (decide ((s.logLines ++
            [buildLog env.fsName env.pathStr raw s.lineNumber s.fileOffset]).length >
              env.batchSize) || env.timeFlush i) = true
        · simp only [readStep, hcan, hm, hd, hf, Bool.false_eq_true, if_false,
            if_true, ite_true, ite_false] at hr
          simp only [List.mem_append, List.mem_singleton] at hr
          rcases hr with hr | hr
          · exact hinv r hr
          · subst hr; rfl
        · rw [Bool.not_eq_true] at hf
          simp only [readStep, hcan, hm, hd, hf, Bool.false_eq_true, if_false,
            if_true, ite_true, ite_false] at hr
          exact hinv r hr

theorem readLoop_finished (env : ReadEnv) :
    ∀ (lines : List RawLine) (i : Nat) (s : ReadState),
      (∀ r ∈ s.out, r.finished = false) →
      ∀ r ∈ (readLoop env lines i s).1.out, r.finished = false := by
  intro lines
  induction lines with
  | nil => intro i s hinv; simpa [readLoop] using hinv
  | cons raw rest ih =>
    intro i s hinv
    have hstep := readStep_finished env i raw s hinv
    rcases hs : readStep env i raw s with ⟨s', b⟩
    rw [hs] at hstep
    rw [readLoop, hs]
    cases b
    · simpa using hstep
    · exact ih (i + 1) s' hstep

theorem readFile_finished (env : ReadEnv) (content : FileData) :
    ∀ r ∈ readFile env content, r.finished = false := by
  intro r hr
  have hloop := readLoop_finished env content.lines 0 initState (by simp [initState])
  rcases hl : readLoop env content.lines 0 initState with ⟨st, b⟩
  rw [hl] at hloop
  rw [readFile, hl] at hr
  cases b
  · exact hloop r hr
  · simp only at hr
    by_cases hse : content.scanErr = true
    · rw [if_pos hse] at hr
      exact hloop r hr
    · rw [Bool.not_eq_true] at hse
      rw [if_neg (by simp [hse])] at hr
      by_cases he : (st.logLines.isEmpty && (st.sentAny || env.re.isSome)) = true
      · rw [if_pos he] at hr
        exact hloop r hr
      · rw [Bool.not_eq_true] at he
        rw [if_neg (by simp [he])] at hr
        rcases List.mem_append.mp hr with hr | hr
        · exact hloop r hr
        · rw [List.mem_singleton] at hr
          subst hr; rfl

theorem read_finished (h : Handler) (req : Request) (src : Source)
    (pathStr : String) (re : Option (String → Bool)) (ors : ReadOracles) :
    ∀ r ∈ read h req src pathStr re ors, r.finished = false := by
  intro r hr
  rcases hfd : findNode src.fs (pathSegs pathStr) with _ | node
  · rw [read, hfd] at hr
    simp at hr
  · cases node with
    | dir nm sz children =>
      rw [read, hfd] at hr
      simp at hr
    | file nm sz content =>
      rw [read] at hr
      simp only [hfd] at hr
      by_cases hop : content.openErr = true
      · simp [hop] at hr
      · rw [Bool.not_eq_true] at hop
        simp only [hop, Bool.false_eq_true, if_false, ite_false] at hr
        exact readFile_finished _ content r hr

theorem serveTree_finished (h : Handler) (req : Request)
    (cache : List (String × Response))
    (hcache : ∀ kv ∈ cache, (kv : String × Response).2.finished = false) :
    (serveTree h req cache).1.finished = false := by
  rw [serveTree]
  rcases hl : cache.lookup (joinPath req.path) with _ | resp
  · simp only
    rw [show ({ ({ meta := req.meta, files := buildTreeFiles h req } :
        Response).filterSources req.filterSource with
          meta := { (({ meta := req.meta, files := buildTreeFiles h req } :
            Response).filterSources req.filterSource).meta with
              id := req.meta.id } } : Response).finished =
        (({ meta := req.meta, files := buildTreeFiles h req } :
          Response).filterSources req.filterSource).finished from rfl]
    rw [filterSources_finished]
  · simp only
    have hmem := lookup_mem cache (joinPath req.path) resp hl
    have hfin := hcache _ hmem
    rw [show ({ resp.filterSources req.filterSource with
          meta := { (resp.filterSources req.filterSource).meta with
            id := req.meta.id } } : Response).finished =
        (resp.filterSources req.filterSource).finished from rfl]
    rw [filterSources_finished]
    exact hfin

theorem serveContent_finished (h : Handler) (req : Request)
    (ors : String → ReadOracles) :
    ∀ r ∈ serveContent h req ors, r.finished = false := by
  intro r hr
  rw [serveContent] at hr
  rcases List.mem_flatMap.mp hr with ⟨src, _, hrd⟩
  exact read_finished h req src (joinPath req.path) none (ors src.name) r hrd

theorem search_finished (h : Handler) (req : Request)
    (compile : String → Except String (String → Bool))
    (ors : String → String → ReadOracles) :
    ∀ r ∈ search h req compile ors, r.finished = false := by
  intro r hr
  rw [search] at hr
  rcases hcp : compile req.regexp with e | re
  · rw [hcp] at hr
    simp only [List.mem_singleton] at hr
    subst hr; rfl
  · rw [hcp] at hr
    simp only at hr
    rcases List.mem_flatMap.mp hr with ⟨src, _, hrd⟩
    rw [searchNode] at hrd
    rcases List.mem_flatMap.mp hrd with ⟨e, _, hrd2⟩
    exact read_finished h req src (joinPath e.segs) (some re)
      (ors src.name (joinPath e.segs)) r hrd2

theorem serveBody_finished (h : Handler) (req : Request)
    (cache : List (String × Response)) (senv : ServeEnv)
    (hcache : ∀ kv ∈ cache, (kv : String × Response).2.finished = false) :
    ∀ r ∈ (serveBody h req cache senv).1, r.finished = false := by
  intro r hr
  rw [serveBody] at hr
  by_cases h1 : req.meta.action = "get-file-tree"
  · rw [if_pos h1] at hr
    simp only [List.mem_singleton] at hr
    subst hr
    exact serveTree_finished h req cache hcache
  · rw [if_neg h1] at hr
    by_cases h2 : req.meta.action = "get-content"
    · rw [if_pos h2] at hr
      exact serveContent_finished h req senv.contentOrs r hr
    · rw [if_neg h2] at hr
      by_cases h3 : req.meta.action = "search"
      · rw [if_pos h3] at hr
        exact search_finished h req senv.compile senv.searchOrs r hr
      · rw [if_neg h3] at hr
        simp at hr

/-- C1: for every accepted request, serve emits exactly one response
with finished set; it is the last response emitted for the request, and
any finished response carries no lines, tree or error payload.  This
holds for every action, including unknown ones, and for every
cancellation and flush oracle. -/
theorem claim1_terminal_marker (h : Handler) (req : Request)
    (cache : List (String × Response)) (senv : ServeEnv)
    (hcache : ∀ kv ∈ cache, (kv : String × Response).2.finished = false) :
    ((serve h req cache senv).1.countP fun r => r.finished) = 1 ∧
    (serve h req cache senv).1.getLast? = some { meta := req.meta, finished := true } ∧
    (∀ r ∈ (serve h req cache senv).1, r.finished = true →
      r.lines = [] ∧ r.files = [] ∧ r.error = "") := by
  have hbody := serveBody_finished h req cache senv hcache
  refine ⟨?_, ?_, ?_⟩
  · rw [serve]
    simp only [List.countP_append]
    have hz : ((serveBody h req cache senv).1.countP fun r => r.finished) = 0 := by
      rw [List.countP_eq_zero]
      intro r hr
      simp [hbody r hr]
    rw [hz]
    simp [List.countP_cons]
  · rw [serve]
    exact List.getLast?_concat _
  · rw [serve]
    intro r hr hfin
    rcases List.mem_append.mp hr with hr | hr
    · rw [hbody r hr] at hfin
      cases hfin
    · rw [List.mem_singleton] at hr
      subst hr
      exact ⟨rfl, rfl, rfl⟩

theorem claim1_witness :
    ((serve exHandler (exReq "get-content") [] exServeEnvFail).1.countP
      fun r => r.finished) = 1 ∧
    (serve exHandler (exReq "get-content") [] exServeEnvFail).1.getLast? =
      some { meta := (exReq "get-content").meta, finished := true } ∧
    (∀ r ∈ (serve exHandler (exReq "get-content") [] exServeEnvFail).1,
      r.finished = true → r.lines = [] ∧ r.files = [] ∧ r.error = "") :=
  claim1_terminal_marker exHandler (exReq "get-content") [] exServeEnvFail
    (by simp)

/-- C7: a search request whose regexp does not compile produces exactly
one response, with a non-empty error string and no payload, followed by
the terminal marker; no source is read and the cache is untouched. -/
theorem claim7_bad_regex (h : Handler) (req : Request)
    (cache : List (String × Response)) (senv : ServeEnv) (e : String)
    (hact : req.meta.action = "search")
    (hcomp : senv.compile req.regexp = .error e) :
    (serve h req cache senv).1 =
      [{ meta := req.meta, error := "Bad regexp " ++ req.regexp ++ ": " ++ e },
       { meta := req.meta, finished := true }] ∧
    ("Bad regexp " ++ req.regexp ++ ": " ++ e) ≠ "" ∧
    (serve h req cache senv).2 = cache := by
  refine ⟨?_, ?_, ?_⟩
  · rw [serve, serveBody, hact]
    rw [if_neg (by decide), if_neg (by decide), if_pos rfl]
    rw [search, hcomp]
    rfl
  · intro hh
    have hd := congrArg String.length hh
    rw [String.length_append, String.length_append, String.length_append] at hd
    have h11 : "Bad regexp ".length = 11 := rfl
    have h2 : ": ".length = 2 := rfl
    have h0 : "".length = 0 := rfl
    rw [h11, h2, h0] at hd
    omega
  · rw [serve, serveBody, hact]
    rw [if_neg (by decide), if_neg (by decide), if_pos rfl]

theorem claim7_witness :
    (serve exHandler (exReq "search") [] exServeEnvFail).1 =
      [{ meta := (exReq "search").meta,
         error := "Bad regexp " ++ (exReq "search").regexp ++ ": " ++ "syntax" },
       { meta := (exReq "search").meta, finished := true }] ∧
    ("Bad regexp " ++ (exReq "search").regexp ++ ": " ++ "syntax") ≠ "" ∧
    (serve exHandler (exReq "search") [] exServeEnvFail).2 = [] :=
  claim7_bad_regex exHandler (exReq "search") [] exServeEnvFail "syntax" rfl rfl

/-- C4 (code bug): filterOutTime evaluated at a line whose time 10 lies
strictly after the end bound 5 while a start bound 0 is also set: the
code keeps the line (returns false) because the End bound is consulted
only when Start is nil, whereas the specified filter drops it. -/
theorem claim4_end_bound_ignored :
    filterOutTime { msg := "", level := "", time := some 10 }
      { start := some 0, stop := some 5 } = false ∧ (5 : Int) < 10 := by decide

/-- C3 (code bug): with content batch size 1 and search cap 2, a search
over a file of three matching lines emits all three lines: the cap test
compares the current unflushed batch, which every flush resets, so the
per-file total is not capped at search_max_size. -/
theorem claim3_cap_not_enforced :
    exHandler.searchMaxSize <
      (allLines (read exHandler (exReq "search") exSource "f"
        (some exMatchAll) exOrs)).length ∧
    (allLines (read exHandler (exReq "search") exSource "f"
        (some exMatchAll) exOrs)).length = exContent.lines.length := by decide

/-- C9: while a cache entry for the base path is live, a repeated
get-file-tree request differing only in its id yields the same files and
leaves the cache untouched; the entry stored on a miss is the unfiltered
merged tree, and filtering happens on a copy after lookup. -/
theorem claim9_tree_cache_idempotent (h : Handler) (req : Request)
    (cache : List (String × Response)) (j : Int) :
    (serveTree h { req with meta := { req.meta with id := j } }
        (serveTree h req cache).2).1.files = (serveTree h req cache).1.files ∧
    (serveTree h { req with meta := { req.meta with id := j } }
        (serveTree h req cache).2).2 = (serveTree h req cache).2 ∧
    (serveTree h { req with meta := { req.meta with id := j } }
        (serveTree h req cache).2).1.meta.id = j ∧
    List.lookup (joinPath req.path) ((serveTree h req []).2) =
      some { meta := req.meta, files := buildTreeFiles h req } := by
  refine ⟨?_, ?_, ?_, ?_⟩
  all_goals
    rcases hl : cache.lookup (joinPath req.path) with _ | resp <;>
      simp [serveTree, hl, List.lookup]

/-! ## Tree combination (C2) -/

theorem srcTreeAdds_shape (h : Handler) (req : Request) (src : Source) :
    ∀ a ∈ srcTreeAdds h req src, a.1.instances = [] ∧ a.2.fs = src.name := by
  intro a ha
  rw [srcTreeAdds] at ha
  rcases List.mem_filterMap.mp ha with ⟨e, _, he⟩
  split at he
  · exact absurd he (by simp)
  · rw [Option.some_inj] at he
    subst he
    exact ⟨rfl, rfl⟩

theorem mem_walkKeys (h : Handler) (req : Request) (src : Source) (k : String) :
    k ∈ walkKeys h req src ↔ ∃ a ∈ srcTreeAdds h req src, a.1.key = k := by
  simp [walkKeys, List.mem_map]

theorem combine_concat (adds : List (File × FileInstance)) (a : File × FileInstance) :
    combine (adds ++ [a]) = addFile (combine adds) a.1 a.2 := by
  simp [combine, List.foldl_append]

theorem combine_spec :
    ∀ (adds : List (File × FileInstance)),
      (∀ a ∈ adds, a.1.instances = []) →
      ((combine adds).map File.key).Nodup ∧
      (∀ k, k ∈ (combine adds).map File.key ↔ ∃ a ∈ adds, a.1.key = k) ∧
      (∀ f ∈ combine adds, f.instances =
        (adds.filter fun x => x.1.key == f.key).map fun x => x.2) := by
  intro adds
  induction adds using List.reverseRecOn with
  | nil => intro _; simp [combine]
  | append_singleton adds a ih =>
    intro hE
    obtain ⟨hnd, hmem, hinst⟩ := ih fun x hx => hE x (List.mem_append_left _ hx)
    have hEa : a.1.instances = [] := hE a (List.mem_append_right _ (List.mem_singleton_self a))
    rw [combine_concat]
    by_cases hin : ((combine adds).any fun g => g.key == a.1.key) = true
    · obtain ⟨g0, hg0, hkg0⟩ := List.any_eq_true.mp hin
      have hkey0 : a.1.key ∈ (combine adds).map File.key := by
        rcases List.mem_map.mpr ⟨g0, hg0, (eq_of_beq hkg0)⟩ with hmm2
        exact hmm2
      have hupd : ∀ g : File,
          ((if g.key == a.1.key then
            { g with instances := g.instances ++ [a.2] } else g) : File).key = g.key := by
        intro g
        by_cases hgk : (g.key == a.1.key) = true <;> simp [hgk]
      rw [addFile, if_pos hin]
      have hkeys_eq : ((combine adds).map fun g =>
            (if g.key == a.1.key then
              { g with instances := g.instances ++ [a.2] } else g : File)).map File.key =
          (combine adds).map File.key := by
        rw [List.map_map]
        exact List.map_congr_left fun g _ => hupd g
      refine ⟨?_, ?_, ?_⟩
      · rw [hkeys_eq]; exact hnd
      · intro k
        rw [hkeys_eq]
        constructor
        · intro hk
          rcases (hmem k).mp hk with ⟨x, hx, hkx⟩
          exact ⟨x, List.mem_append_left _ hx, hkx⟩
        · rintro ⟨x, hx, hkx⟩
          rcases List.mem_append.mp hx with hx | hx
          · exact (hmem k).mpr ⟨x, hx, hkx⟩
          · rw [List.mem_singleton] at hx
            subst hx
            rw [← hkx]
            exact hkey0
      · intro f hf
        rcases List.mem_map.mp hf with ⟨g, hg, hfg⟩
        by_cases hgk : (g.key == a.1.key) = true
        · rw [if_pos hgk] at hfg
          subst hfg
          have hkeq : g.key = a.1.key := eq_of_beq hgk
          have hbeq : (a.1.key == g.key) = true := by
            rw [hkeq]; exact beq_self_eq_true _
          rw [List.filter_append, List.map_append]
          simp only [List.filter_cons, List.filter_nil]
          rw [show ((a.1.key ==
              ({ g with instances := g.instances ++ [a.2] } : File).key) = true) from hbeq]
          simp only [if_true, ite_true, List.map_cons, List.map_nil]
          rw [hinst g hg]
        · rw [if_neg hgk] at hfg
          subst hfg
          rw [Bool.not_eq_true] at hgk
          have hne : a.1.key ≠ g.key := Ne.symm (beq_eq_false_iff_ne.mp hgk)
          rw [List.filter_append]
          simp only [List.filter_cons, List.filter_nil]
          rw [show ((a.1.key == g.key) = false) from beq_eq_false_iff_ne.mpr hne]
          simp only [Bool.false_eq_true, if_false, ite_false, List.append_nil]
          exact hinst g hg
    · rw [addFile, if_neg (by simp [hin])]
      rw [Bool.not_eq_true] at hin
      have hnotin : ∀ g ∈ combine adds, g.key ≠ a.1.key := by
        intro g hg hcon
        have : ((combine adds).any fun g => g.key == a.1.key) = true :=
          List.any_eq_true.mpr ⟨g, hg, by rw [hcon]; exact beq_self_eq_true _⟩
        rw [hin] at this
        cases this
      have hknew : a.1.key ∉ (combine adds).map File.key := by
        intro hcon
        rcases List.mem_map.mp hcon with ⟨g, hg, hkg⟩
        exact hnotin g hg hkg
      have hnoadds : ∀ x ∈ adds, x.1.key ≠ a.1.key := by
        intro x hx hcon
        exact hknew ((hmem a.1.key).mpr ⟨x, hx, hcon⟩)
      refine ⟨?_, ?_, ?_⟩
      · rw [List.map_append]
        simp only [List.map_cons, List.map_nil]
        rw [show ({ a.1 with instances := a.1.instances ++ [a.2] } : File).key =
          a.1.key from rfl]
        simp [List.nodup_append, hnd, hknew]
      · intro k
        rw [List.map_append]
        simp only [List.map_cons, List.map_nil]
        rw [show ({ a.1 with instances := a.1.instances ++ [a.2] } : File).key =
          a.1.key from rfl]
        rw [List.mem_append, List.mem_singleton, hmem k]
        constructor
        · rintro (⟨x, hx, hkx⟩ | hk)
          · exact ⟨x, List.mem_append_left _ hx, hkx⟩
          · exact ⟨a, List.mem_append_right _ (List.mem_singleton_self a), hk.symm⟩
        · rintro ⟨x, hx, hkx⟩
          rcases List.mem_append.mp hx with hx | hx
          · exact Or.inl ⟨x, hx, hkx⟩
          · rw [List.mem_singleton] at hx
            subst hx
            exact Or.inr hkx.symm
      · intro f hf
        rcases List.mem_append.mp hf with hf | hf
        · have hne : a.1.key ≠ f.key := Ne.symm (hnotin f hf)
          rw [List.filter_append]
          simp only [List.filter_cons, List.filter_nil]
          rw [show ((a.1.key == f.key) = false) from beq_eq_false_iff_ne.mpr hne]
          simp only [Bool.false_eq_true, if_false, ite_false, List.append_nil]
          exact hinst f hf
        · rw [List.mem_singleton] at hf
          subst hf
          rw [show ({ a.1 with instances := a.1.instances ++ [a.2] } : File).key =
            a.1.key from rfl, hEa]
          rw [List.filter_append]
          have hfilnil : (adds.filter fun x => x.1.key == a.1.key) = [] := by
            rw [List.filter_eq_nil_iff]
            intro x hx
            simp [beq_eq_false_iff_ne.mpr (hnoadds x hx)]
          rw [hfilnil]
          simp

theorem countP_and_of_all {α : Type} (p q : α → Bool) :
    ∀ (l : List α), (∀ x ∈ l, p x = true) →
      l.countP (fun x => p x && q x) = l.countP q := by
  intro l
  induction l with
  | nil => intro _; rfl
  | cons x t ih =>
    intro hp
    rw [List.countP_cons, List.countP_cons,
      ih fun y hy => hp y (List.mem_cons_of_mem x hy),
      hp x (List.mem_cons_self x t)]
    simp

theorem countP_fs_filter (nm : String) (fset : List String) :
    ∀ (l : List FileInstance),
      (l.countP fun i => (i.fs == nm) && fset.contains i.fs) =
        if fset.contains nm then l.countP (fun i => i.fs == nm) else 0 := by
  intro l
  induction l with
  | nil => simp
  | cons i t ih =>
    rw [List.countP_cons, List.countP_cons, ih]
    by_cases hfs : (i.fs == nm) = true
    · have hnm : i.fs = nm := eq_of_beq hfs
      rw [hfs, hnm]
      by_cases hc : fset.contains nm = true
      · rw [hc]; simp
      · rw [Bool.not_eq_true] at hc
        rw [hc]; simp
    · rw [Bool.not_eq_true] at hfs
      rw [hfs]
      by_cases hc : fset.contains nm = true
      · rw [hc]; simp
      · rw [Bool.not_eq_true] at hc
        rw [hc]; simp

theorem countP_flatMap_zero {α β : Type} (g : α → List β) (p : β → Bool) :
    ∀ (l : List α), (∀ x ∈ l, (g x).countP p = 0) →
      (l.flatMap g).countP p = 0 := by
  intro l
  induction l with
  | nil => intro _; rfl
  | cons x t ih =>
    intro hz
    rw [List.flatMap_cons, List.countP_append, hz x (List.mem_cons_self x t),
      ih fun y hy => hz y (List.mem_cons_of_mem x hy)]

theorem countP_flatMap_unique (g : Source → List (File × FileInstance))
    (p : File × FileInstance → Bool) (s : Source) :
    ∀ (srcs : List Source), s ∈ srcs → (srcs.map Source.name).Nodup →
      (∀ s' ∈ srcs, s'.name ≠ s.name → (g s').countP p = 0) →
      (srcs.flatMap g).countP p = (g s).countP p := by
  intro srcs
  induction srcs with
  | nil => intro hs; cases hs
  | cons hd tl ih =>
    intro hs hnd hz
    rw [List.map_cons, List.nodup_cons] at hnd
    obtain ⟨hnin, hnd'⟩ := hnd
    rw [List.flatMap_cons, List.countP_append]
    rcases List.mem_cons.mp hs with hs | hs
    · subst hs
      have htl : (tl.flatMap g).countP p = 0 := by
        apply countP_flatMap_zero
        intro y hy
        apply hz y (List.mem_cons_of_mem _ hy)
        intro hcon
        exact hnin (List.mem_map.mpr ⟨y, hy, hcon⟩)
      rw [htl]
      simp
    · have hhd : (g hd).countP p = 0 := by
        apply hz hd (List.mem_cons_self hd tl)
        intro hcon
        rw [hcon] at hnin
        exact hnin (List.mem_map.mpr ⟨s, hs, rfl⟩)
      rw [hhd, ih hs hnd' fun y hy hny => hz y (List.mem_cons_of_mem _ hy) hny]
      simp

theorem countP_srcTreeAdds_key (h : Handler) (req : Request) (src : Source) (k : String)
    (hnd : (walkKeys h req src).Nodup) :
    ((srcTreeAdds h req src).countP fun a => a.1.key == k) =
      if k ∈ walkKeys h req src then 1 else 0 := by
  have hcount : (walkKeys h req src).count k =
      ((srcTreeAdds h req src).countP fun a => a.1.key == k) := by
    rw [show (walkKeys h req src).count k =
      (walkKeys h req src).countP (fun x => x == k) from rfl]
    rw [walkKeys, List.countP_map]
    rfl
  rw [← hcount]
  by_cases hm : k ∈ walkKeys h req src
  · rw [if_pos hm, List.count_eq_one_of_mem hnd hm]
  · rw [if_neg hm, List.count_eq_zero_of_not_mem hm]

theorem srcTreeAdds_empty_instances (h : Handler) (req : Request) :
    ∀ a ∈ h.sources.flatMap (fun s => srcTreeAdds h req s), a.1.instances = [] := by
  intro a ha
  rcases List.mem_flatMap.mp ha with ⟨s, _, has⟩
  exact (srcTreeAdds_shape h req s a has).1

theorem buildTreeFiles_countP_fs (h : Handler) (req : Request)
    (hnames : (h.sources.map Source.name).Nodup)
    (hkeys : ∀ src ∈ h.sources, (walkKeys h req src).Nodup)
    (f : File) (hf : f ∈ buildTreeFiles h req)
    (src : Source) (hsrc : src ∈ h.sources) :
    (f.instances.countP fun i => i.fs == src.name) =
      if f.key ∈ walkKeys h req src then 1 else 0 := by
  obtain ⟨_, _, hinst⟩ := combine_spec _ (srcTreeAdds_empty_instances h req)
  rw [buildTreeFiles] at hf
  rw [hinst f hf]
  rw [show ((((h.sources.flatMap fun src => srcTreeAdds h req src).filter
      fun x => x.1.key == f.key).map fun x => x.2).countP
        fun i => i.fs == src.name) =
    ((h.sources.flatMap fun s => srcTreeAdds h req s).countP
      fun a => (a.2.fs == src.name) && (a.1.key == f.key)) from by
    rw [List.countP_map, List.countP_filter]
    rfl]
  have hz : ∀ s' ∈ h.sources, s'.name ≠ src.name →
      ((srcTreeAdds h req s').countP
        fun a => (a.2.fs == src.name) && (a.1.key == f.key)) = 0 := by
    intro s' _ hne
    rw [List.countP_eq_zero]
    intro x hx
    rw [(srcTreeAdds_shape h req s' x hx).2]
    simp [beq_eq_false_iff_ne.mpr hne]
  rw [countP_flatMap_unique (fun s => srcTreeAdds h req s)
    (fun a => (a.2.fs == src.name) && (a.1.key == f.key)) src h.sources hsrc hnames hz]
  rw [countP_and_of_all (fun a => a.2.fs == src.name) (fun a => a.1.key == f.key)
    (srcTreeAdds h req src)
    fun x hx => by
      show (x.2.fs == src.name) = true
      rw [(srcTreeAdds_shape h req src x hx).2]
      exact beq_self_eq_true _]
  exact countP_srcTreeAdds_key h req src f.key (hkeys src hsrc)

theorem buildTreeFiles_mem_key (h : Handler) (req : Request) (k : String) :
    k ∈ (buildTreeFiles h req).map File.key ↔
      ∃ src ∈ h.sources, k ∈ walkKeys h req src := by
  obtain ⟨_, hmem, _⟩ := combine_spec _ (srcTreeAdds_empty_instances h req)
  rw [buildTreeFiles, hmem k]
  constructor
  · rintro ⟨a, ha, hka⟩
    rcases List.mem_flatMap.mp ha with ⟨src, hsrc, has⟩
    exact ⟨src, hsrc, (mem_walkKeys h req src k).mpr ⟨a, has, hka⟩⟩
  · rintro ⟨src, hsrc, hks⟩
    rcases (mem_walkKeys h req src k).mp hks with ⟨a, has, hka⟩
    exact ⟨a, List.mem_flatMap.mpr ⟨src, hsrc, has⟩, hka⟩

theorem buildTreeFiles_inst_mem (h : Handler) (req : Request)
    (f : File) (hf : f ∈ buildTreeFiles h req) (i : FileInstance) :
    i ∈ f.instances ↔
      ∃ src ∈ h.sources, ∃ x ∈ srcTreeAdds h req src, x.1.key = f.key ∧ x.2 = i := by
  obtain ⟨_, _, hinst⟩ := combine_spec _ (srcTreeAdds_empty_instances h req)
  rw [buildTreeFiles] at hf
  rw [hinst f hf]
  constructor
  · intro hi
    rcases List.mem_map.mp hi with ⟨x, hx, hxi⟩
    rcases List.mem_filter.mp hx with ⟨hxadds, hxk⟩
    rcases List.mem_flatMap.mp hxadds with ⟨src, hsrc, hxs⟩
    exact ⟨src, hsrc, x, hxs, eq_of_beq hxk, hxi⟩
  · rintro ⟨src, hsrc, x, hxs, hxk, hxi⟩
    apply List.mem_map.mpr
    refine ⟨x, List.mem_filter.mpr ⟨List.mem_flatMap.mpr ⟨src, hsrc, hxs⟩, ?_⟩, hxi⟩
    rw [hxk]
    exact beq_self_eq_true _

theorem fileFilterSources_eq_some (f : File) (fset : List String) (f' : File)
    (hf : f.filterSources fset = some f') :
    f'.key = f.key ∧
    f'.instances = f.instances.filter (fun i => fset.contains i.fs) ∧
    f'.instances ≠ [] := by
  rw [File.filterSources] at hf
  split at hf
  · cases hf
  · rename_i hcond
    rw [Option.some_inj] at hf
    subst hf
    refine ⟨rfl, rfl, ?_⟩
    intro hcon
    rw [show ({ f with instances :=
      f.instances.filter fun i => fset.contains i.fs } : File).instances =
      f.instances.filter (fun i => fset.contains i.fs) from rfl] at hcon
    rw [hcon] at hcond
    simp at hcond

theorem fileFilterSources_of_ne_nil (f : File) (fset : List String)
    (hne : (f.instances.filter fun i => fset.contains i.fs) ≠ []) :
    f.filterSources fset =
      some { f with instances := f.instances.filter fun i => fset.contains i.fs } := by
  rw [File.filterSources, if_neg]
  intro hcon
  exact hne (List.isEmpty_iff.mp hcon)

theorem serveTree_empty_cache_files (h : Handler) (req : Request) :
    (serveTree h req []).1.files =
      if req.filterSource.isEmpty then buildTreeFiles h req
      else (buildTreeFiles h req).filterMap fun f => f.filterSources req.filterSource := by
  by_cases hfe : req.filterSource.isEmpty = true <;>
    simp [serveTree, List.lookup, Response.filterSources, hfe]

/-- C2: over a registry with unique source names whose per-source walks
repeat no key, the keys of the tree served on a cold cache are exactly
the union, over sources passing the source filter, of the keys walked
after the exclusion policy; every served file carries exactly one
instance per passing source holding its key (so files with no surviving
instance are gone), and an empty filter set filters nothing. -/
theorem claim2_tree_merge (h : Handler) (req : Request)
    (hnames : (h.sources.map Source.name).Nodup)
    (hkeys : ∀ src ∈ h.sources, (walkKeys h req src).Nodup) :
    (∀ k, k ∈ ((serveTree h req []).1.files.map File.key) ↔
      ∃ src ∈ h.sources, passFilter req.filterSource src = true ∧
        k ∈ walkKeys h req src) ∧
    (∀ f ∈ (serveTree h req []).1.files, ∀ src ∈ h.sources,
      (f.instances.countP fun i => i.fs == src.name) =
        if passFilter req.filterSource src = true ∧ f.key ∈ walkKeys h req src
        then 1 else 0) ∧
    (∀ r : Response, r.filterSources [] = r) := by
  rw [serveTree_empty_cache_files]
  by_cases hfe : req.filterSource.isEmpty = true
  · rw [if_pos hfe]
    refine ⟨?_, ?_, ?_⟩
    · intro k
      rw [buildTreeFiles_mem_key]
      constructor
      · rintro ⟨src, hsrc, hks⟩
        exact ⟨src, hsrc, by simp [passFilter, hfe], hks⟩
      · rintro ⟨src, hsrc, _, hks⟩
        exact ⟨src, hsrc, hks⟩
    · intro f hf src hsrc
      rw [buildTreeFiles_countP_fs h req hnames hkeys f hf src hsrc]
      have hpass : passFilter req.filterSource src = true := by
        simp [passFilter, hfe]
      by_cases hm : f.key ∈ walkKeys h req src
      · rw [if_pos hm, if_pos ⟨hpass, hm⟩]
      · rw [if_neg hm, if_neg fun hcon => hm hcon.2]
    · intro r; rfl
  · rw [Bool.not_eq_true] at hfe
    rw [if_neg (by simp [hfe])]
    have hpass : ∀ src : Source, passFilter req.filterSource src =
        req.filterSource.contains src.name := by
      intro src
      simp [passFilter, hfe]
    refine ⟨?_, ?_, ?_⟩
    · intro k
      constructor
      · intro hk
        rcases List.mem_map.mp hk with ⟨f', hf', hk'⟩
        rcases List.mem_filterMap.mp hf' with ⟨g, hg, hgf⟩
        obtain ⟨hkey, hinsts, hne⟩ := fileFilterSources_eq_some g _ f' hgf
        obtain ⟨i, hi⟩ := List.exists_mem_of_ne_nil _ hne
        rw [hinsts] at hi
        rcases List.mem_filter.mp hi with ⟨hig, hicon⟩
        rcases (buildTreeFiles_inst_mem h req g hg i).mp hig with
          ⟨src, hsrc, x, hxs, hxk, hxi⟩
        refine ⟨src, hsrc, ?_, ?_⟩
        · rw [hpass src]
          have hifs : i.fs = src.name := by
            rw [← hxi]
            exact (srcTreeAdds_shape h req src x hxs).2
          rwa [← hifs]
        · rw [← hk', hkey, ← hxk]
          exact (mem_walkKeys h req src x.1.key).mpr ⟨x, hxs, rfl⟩
      · rintro ⟨src, hsrc, hp, hks⟩
        rw [hpass src] at hp
        rcases (mem_walkKeys h req src k).mp hks with ⟨x, hxs, hxk⟩
        have hkb : k ∈ (buildTreeFiles h req).map File.key :=
          (buildTreeFiles_mem_key h req k).mpr ⟨src, hsrc, hks⟩
        rcases List.mem_map.mp hkb with ⟨g, hg, hgk⟩
        have hxi : x.2 ∈ g.instances := by
          apply (buildTreeFiles_inst_mem h req g hg x.2).mpr
          exact ⟨src, hsrc, x, hxs, by rw [hxk, hgk], rfl⟩
        have hfs : x.2.fs = src.name := (srcTreeAdds_shape h req src x hxs).2
        have hmemfil : x.2 ∈ g.instances.filter
            fun i => req.filterSource.contains i.fs :=
          List.mem_filter.mpr ⟨hxi, by rw [hfs]; exact hp⟩
        have hne : (g.instances.filter fun i => req.filterSource.contains i.fs) ≠ [] := by
          intro hcon
          rw [hcon] at hmemfil
          cases hmemfil
        rw [List.mem_map]
        refine ⟨{ g with instances := g.instances.filter fun i => req.filterSource.contains i.fs }, ?_, ?_⟩
        · exact List.mem_filterMap.mpr ⟨g, hg, fileFilterSources_of_ne_nil g _ hne⟩
        · exact hgk
    · intro f hf src hsrc
      rcases List.mem_filterMap.mp hf with ⟨g, hg, hgf⟩
      obtain ⟨hkey, hinsts, _⟩ := fileFilterSources_eq_some g _ f hgf
      rw [hinsts, List.countP_filter, countP_fs_filter src.name req.filterSource
        g.instances, hkey, hpass src]
      by_cases hc : req.filterSource.contains src.name = true
      · rw [if_pos hc]
        rw [buildTreeFiles_countP_fs h req hnames hkeys g hg src hsrc]
        by_cases hm : g.key ∈ walkKeys h req src
        · rw [if_pos hm, if_pos ⟨hc, hm⟩]
        · rw [if_neg hm, if_neg fun hcon => hm hcon.2]
      · rw [Bool.not_eq_true] at hc
        rw [if_neg fun hcon => by rw [hc] at hcon; exact Bool.false_ne_true hcon,
          if_neg fun hcon => by
            have h1 := hcon.1
            rw [hc] at h1
            exact Bool.false_ne_true h1]
    · intro r; rfl

theorem claim2_witness :
    ((exHandler.sources.map Source.name).Nodup ∧
      ∀ src ∈ exHandler.sources,
        (walkKeys exHandler (exReq "get-file-tree") src).Nodup) ∧
    ((∀ k, k ∈ ((serveTree exHandler (exReq "get-file-tree") []).1.files.map File.key) ↔
      ∃ src ∈ exHandler.sources,
        passFilter (exReq "get-file-tree").filterSource src = true ∧
        k ∈ walkKeys exHandler (exReq "get-file-tree") src) ∧
    (∀ f ∈ (serveTree exHandler (exReq "get-file-tree") []).1.files,
      ∀ src ∈ exHandler.sources,
      (f.instances.countP fun i => i.fs == src.name) =
        if passFilter (exReq "get-file-tree").filterSource src = true ∧
            f.key ∈ walkKeys exHandler (exReq "get-file-tree") src
        then 1 else 0) ∧
    (∀ r : Response, r.filterSources [] = r)) :=
  ⟨⟨by decide, by decide⟩,
   claim2_tree_merge exHandler (exReq "get-file-tree") (by decide) (by decide)⟩

end Logserver
